import Mathlib

/-!
Shallow embedding of the time-series comparison computations in
`src/notebooks/work-in-progress/timeseries-comparison.ipynb`.

The notebook's computational core is a handful of pandas idioms:

* `eia930_sub_agg` / `ba_totals` / `eia930_bymonth` — `groupby(...).sum()`
  with the default `skipna` behaviour (missing values contribute nothing,
  an all-missing group sums to `0.0`);
* `ba_totals["pct_diff"]` and `eia930_bymonth["frac_diff"]` — elementwise
  float division `(sumA - sumB) / sumA`, which follows IEEE-754 semantics:
  `0/0 = NaN`, `±x/0 = ±inf` for `x ≠ 0`;
* `eia930_both` / `ferc714_both` — `pd.merge(..., how="inner"/"outer")`;
* `eia930_bymonth.sort_values("frac_diff", ascending=False)` — sorting with
  the default `na_position="last"`, so NaN rows go to the end for both
  sort directions;
* `bad_data` — `groupby(..., observed=True)[flag].apply(lambda x: x.notnull().mean())`.

Numeric values are modelled as exact rationals; the IEEE-754 special values
that the division and sorting semantics depend on are modelled by the `Val`
type (`fin q`, `pinf`, `ninf`, `nan`).  Missing data (NaN cells / nulls) in
input tables is modelled as `Option ℚ` with `none` for a missing value.
Rounding of float arithmetic is not modelled: the claims under study concern
zero denominators, NaN propagation and ordering, none of which depend on
rounding.
-/

/-- IEEE-754-style extended value: a finite rational, one of the two
infinities, or NaN.  Only the operations the notebook uses are defined. -/
inductive Val : Type where
  | fin : ℚ → Val
  | pinf : Val
  | ninf : Val
  | nan : Val
deriving DecidableEq, Repr

namespace Val

/-- IEEE-754 division restricted to the shapes produced here.  The only
zero is `+0` (rationals have a single zero, and the notebook's denominators
are sums that pandas produces as `+0.0`).  `0/0 = NaN`; a nonzero finite
numerator over zero gives a signed infinity; NaN propagates. -/
def div : Val → Val → Val
  | fin a, fin b =>
      if b = 0 then
        if a = 0 then nan else if 0 < a then pinf else ninf
      else fin (a / b)
  | fin _, pinf => fin 0
  | fin _, ninf => fin 0
  | pinf, fin b => if 0 ≤ b then pinf else ninf
  | ninf, fin b => if 0 ≤ b then ninf else pinf
  | pinf, pinf => nan
  | pinf, ninf => nan
  | ninf, pinf => nan
  | ninf, ninf => nan
  | nan, _ => nan
  | _, nan => nan

/-- Comparison used when sorting non-NaN float values
(`ninf < fin q < pinf`).  To make the relation total we place `nan`
greatest; the ranking operation never compares `nan` through this relation
because it splits NaN rows off first, exactly as
`sort_values(na_position="last")` does. -/
def leB : Val → Val → Bool
  | _, nan => true
  | nan, _ => false
  | ninf, _ => true
  | _, ninf => false
  | fin a, fin b => a ≤ b
  | fin _, pinf => true
  | pinf, fin _ => false
  | pinf, pinf => true

end Val

/-- A row of an aligned/grouped numeric table: an abstract group key (such
as a `(balancing_authority, month)` pair) plus one measurement value, with
`none` for a missing (NaN) cell. -/
structure SRow (K : Type) where
  key : K
  value : Option ℚ
deriving DecidableEq, Repr

/-- `skipna` sum of a column: missing values contribute zero, exactly as
pandas `sum()` treats NaN cells. -/
def osum : List (Option ℚ) → ℚ
  | [] => 0
  | v :: vs => v.getD 0 + osum vs

/-- The sum of `value` over the rows of one group, pandas
`groupby(key)[value].sum()` for a single key: missing values contribute
zero. -/
def groupSum {K : Type} [DecidableEq K] (rows : List (SRow K)) (k : K) : ℚ :=
  osum ((rows.filter (fun r => r.key = k)).map SRow.value)

/-- `groupby(group_keys)[value_field].sum()`: one `(key, sum)` pair per
distinct key occurring in the table.  Groups arise only from rows that are
present (`observed=True` semantics). -/
def aggregate {K : Type} [DecidableEq K] (rows : List (SRow K)) : List (K × ℚ) :=
  ((rows.map SRow.key).dedup).map (fun k => (k, groupSum rows k))

/-- A row of the merged/aligned table (`eia930_both`): abstract group key
plus the two series' measurement columns, `none` for a missing cell. -/
structure ARow (K : Type) where
  key : K
  va : Option ℚ
  vb : Option ℚ
deriving DecidableEq, Repr

/-- Series-A group sum over the aligned rows of group `k` (pandas
`groupby(...)["demand_reported_mwh_ba"].sum()`). -/
def sumsA {K : Type} [DecidableEq K] (rows : List (ARow K)) (k : K) : ℚ :=
  osum ((rows.filter (fun r => r.key = k)).map ARow.va)

/-- Series-B group sum over the aligned rows of group `k`. -/
def sumsB {K : Type} [DecidableEq K] (rows : List (ARow K)) (k : K) : ℚ :=
  osum ((rows.filter (fun r => r.key = k)).map ARow.vb)

/-- One row of `ba_totals` / `eia930_bymonth` after the difference columns
are added: group key, both sums, absolute difference, and the float
fractional difference `(sumA - sumB) / sumA`. -/
structure DRecord (K : Type) where
  key : K
  sumA : ℚ
  sumB : ℚ
  absDiff : ℚ
  fracDiff : Val
deriving DecidableEq, Repr

/-- The discrepancy pipeline of cells `ba_totals` and `eia930_bymonth`:
group the aligned rows, sum both series per group (`skipna`), and compute
`pct_diff` / `frac_diff` as the IEEE-754 division
`(sumA - sumB) / sumA`. -/
def discrepancy {K : Type} [DecidableEq K] (rows : List (ARow K)) : List (DRecord K) :=
  ((rows.map ARow.key).dedup).map (fun k =>
    { key := k
      sumA := sumsA rows k
      sumB := sumsB rows k
      absDiff := sumsA rows k - sumsB rows k
      fracDiff := Val.div (Val.fin (sumsA rows k - sumsB rows k)) (Val.fin (sumsA rows k)) })

/-- Exchanging the roles of series A and series B in an aligned table. -/
def swapAB {K : Type} (rows : List (ARow K)) : List (ARow K) :=
  rows.map (fun r => { key := r.key, va := r.vb, vb := r.va })

/-- `div` on finite arguments is NaN exactly for `0 / 0`. -/
lemma Val.div_fin_eq_nan_iff (n d : ℚ) :
    Val.div (Val.fin n) (Val.fin d) = Val.nan ↔ d = 0 ∧ n = 0 := by
  by_cases hd : d = 0
  · by_cases hn : n = 0
    · simp [Val.div, hd, hn]
    · rcases lt_or_gt_of_ne hn with h | h
      · simp [Val.div, hd, hn, not_lt.mpr h.le, hn]
      · simp [Val.div, hd, hn, h]
  · simp [Val.div, hd]

/-- `div` on finite arguments yields a finite value exactly when the
denominator is nonzero, and then the value is the exact quotient. -/
lemma Val.div_fin_eq_fin_iff (n d q : ℚ) :
    Val.div (Val.fin n) (Val.fin d) = Val.fin q ↔ d ≠ 0 ∧ q = n / d := by
  by_cases hd : d = 0
  · by_cases hn : n = 0
    · simp [Val.div, hd, hn]
    · rcases lt_or_gt_of_ne hn with h | h
      · simp [Val.div, hd, hn, not_lt.mpr h.le]
      · simp [Val.div, hd, hn, h]
  · simp [Val.div, hd, eq_comm]

/-- `div` of a nonzero finite numerator by finite zero is a signed
infinity. -/
lemma Val.div_fin_zero_inf (n : ℚ) (hn : n ≠ 0) :
    Val.div (Val.fin n) (Val.fin 0) = Val.pinf ∨
      Val.div (Val.fin n) (Val.fin 0) = Val.ninf := by
  rcases lt_or_gt_of_ne hn with h | h
  · right; simp [Val.div, hn, not_lt.mpr h.le]
  · left; simp [Val.div, hn, h]

/-- Every record produced by `discrepancy` is determined by its group key. -/
lemma mem_discrepancy_iff {K : Type} [DecidableEq K] (rows : List (ARow K)) (R : DRecord K) :
    R ∈ discrepancy rows ↔ ∃ k ∈ rows.map ARow.key,
      R = { key := k, sumA := sumsA rows k, sumB := sumsB rows k,
            absDiff := sumsA rows k - sumsB rows k,
            fracDiff := Val.div (Val.fin (sumsA rows k - sumsB rows k))
                          (Val.fin (sumsA rows k)) } := by
  simp [discrepancy, List.mem_map, List.mem_dedup, eq_comm]

lemma swapAB_map_key {K : Type} (rows : List (ARow K)) :
    (swapAB rows).map ARow.key = rows.map ARow.key := by
  simp [swapAB, List.map_map]

lemma sumsA_swapAB {K : Type} [DecidableEq K] (rows : List (ARow K)) (k : K) :
    sumsA (swapAB rows) k = sumsB rows k := by
  unfold sumsA sumsB swapAB
  rw [List.filter_map, List.map_map]
  rfl

lemma sumsB_swapAB {K : Type} [DecidableEq K] (rows : List (ARow K)) (k : K) :
    sumsB (swapAB rows) k = sumsA rows k := by
  unfold sumsA sumsB swapAB
  rw [List.filter_map, List.map_map]
  rfl

/-- C1 (counterexample to the claim as stated): at the aligned table with
the single group `0` whose series-A values sum to `0` and series-B values
sum to `5`, the code's fractional difference `(0 - 5) / 0` is the signed
infinity `-inf`, not the NaN sentinel — so it is *not* the case that the
fractional difference is NaN whenever the denominator sum is zero; the
value is silently coerced to an infinity. -/
theorem frac_diff_zero_denominator_counterexample :
    discrepancy [(⟨0, some 0, some 5⟩ : ARow ℕ)] =
      [{ key := 0, sumA := 0, sumB := 5, absDiff := -5, fracDiff := Val.ninf }] ∧
      Val.ninf ≠ Val.nan := by
  constructor
  · norm_num [discrepancy, sumsA, sumsB, osum, Val.div, List.dedup, List.filter, List.pwFilter]
  · intro h
    exact Val.noConfusion h

/-- C1 (amended): for every record produced by the discrepancy pipeline,
the fractional difference is NaN exactly when both the denominator sum
`sumA` and the numerator `sumA - sumB` are zero (equivalently, both sums
are zero); when `sumA` is zero but `sumB` is not, it is a signed infinity
(still distinct from NaN, but an infinity rather than the NaN sentinel);
and when `sumA` is nonzero it is a finite value, distinguishable from
NaN. -/
theorem frac_diff_nan_charactn {K : Type} [DecidableEq K]
    (rows : List (ARow K)) (R : DRecord K) (hR : R ∈ discrepancy rows) :
    (R.fracDiff = Val.nan ↔ R.sumA = 0 ∧ R.sumB = 0) ∧
      (R.sumA = 0 → R.sumB ≠ 0 → R.fracDiff = Val.pinf ∨ R.fracDiff = Val.ninf) ∧
      (R.sumA ≠ 0 → ∃ q : ℚ, R.fracDiff = Val.fin q ∧ R.fracDiff ≠ Val.nan) := by
  rcases (mem_discrepancy_iff rows R).mp hR with ⟨k, -, rfl⟩
  dsimp only
  refine ⟨?_, ?_, ?_⟩
  · rw [Val.div_fin_eq_nan_iff]
    constructor
    · rintro ⟨h1, h2⟩
      exact ⟨h1, by linarith⟩
    · rintro ⟨h1, h2⟩
      exact ⟨h1, by linarith⟩
  · intro h1 h2
    have hn : (0 : ℚ) - sumsB rows k ≠ 0 := by
      intro h
      exact h2 (by linarith)
    rw [h1]
    exact Val.div_fin_zero_inf (0 - sumsB rows k) hn
  · intro h1
    refine ⟨(sumsA rows k - sumsB rows k) / sumsA rows k, ?_, ?_⟩
    · exact (Val.div_fin_eq_fin_iff _ _ _).mpr ⟨h1, rfl⟩
    · rw [Ne, Val.div_fin_eq_nan_iff]
      rintro ⟨h, -⟩
      exact h1 h

/-- C1 witness: the characterisation applied to the concrete two-group
table of the spec's scenarios. -/
theorem frac_diff_nan_charactn_witness :
    ((⟨0, 200, 180, 20, Val.fin (1/10)⟩ : DRecord ℕ).fracDiff = Val.nan ↔
        (⟨0, 200, 180, 20, Val.fin (1/10)⟩ : DRecord ℕ).sumA = 0 ∧
        (⟨0, 200, 180, 20, Val.fin (1/10)⟩ : DRecord ℕ).sumB = 0) ∧
      ((⟨0, 200, 180, 20, Val.fin (1/10)⟩ : DRecord ℕ).sumA = 0 →
        (⟨0, 200, 180, 20, Val.fin (1/10)⟩ : DRecord ℕ).sumB ≠ 0 →
        (⟨0, 200, 180, 20, Val.fin (1/10)⟩ : DRecord ℕ).fracDiff = Val.pinf ∨
          (⟨0, 200, 180, 20, Val.fin (1/10)⟩ : DRecord ℕ).fracDiff = Val.ninf) ∧
      ((⟨0, 200, 180, 20, Val.fin (1/10)⟩ : DRecord ℕ).sumA ≠ 0 →
        ∃ q : ℚ, (⟨0, 200, 180, 20, Val.fin (1/10)⟩ : DRecord ℕ).fracDiff = Val.fin q ∧
          (⟨0, 200, 180, 20, Val.fin (1/10)⟩ : DRecord ℕ).fracDiff ≠ Val.nan) :=
  frac_diff_nan_charactn [⟨0, some 100, some 90⟩, ⟨0, some 100, some 90⟩]
    ⟨0, 200, 180, 20, Val.fin (1/10)⟩
    (by norm_num [discrepancy, sumsA, sumsB, osum, Val.div, List.dedup, List.filter,
          List.pwFilter])

/-- C2 (counterexample to the claim as stated): at the one-group table with
series-A sum `200` and series-B sum `180`, the fractional difference is
`d = 1/10`, and the swapped order's fractional difference is `-1/9`, which
differs from the claimed `-d / (1 + d) = -1/11`. -/
theorem discrepancy_swap_claim_counterexample :
    discrepancy [(⟨0, some 200, some 180⟩ : ARow ℕ)] =
        [{ key := 0, sumA := 200, sumB := 180, absDiff := 20, fracDiff := Val.fin (1/10) }] ∧
      discrepancy (swapAB [(⟨0, some 200, some 180⟩ : ARow ℕ)]) =
        [{ key := 0, sumA := 180, sumB := 200, absDiff := -20, fracDiff := Val.fin (-1/9) }] ∧
      Val.fin (-1/9 : ℚ) ≠ Val.fin (-(1/10) / (1 + 1/10)) := by
  refine ⟨?_, ?_, ?_⟩
  · norm_num [discrepancy, sumsA, sumsB, osum, Val.div, List.dedup, List.filter, List.pwFilter]
  · norm_num [discrepancy, swapAB, sumsA, sumsB, osum, Val.div, List.dedup, List.filter,
      List.pwFilter]
  · intro h
    rw [Val.fin.injEq] at h
    norm_num at h

/-- C2 (amended): swapping the two series exchanges the summed columns and
negates the absolute difference of every discrepancy record; the
fractional difference is NaN after the swap exactly when it was NaN before
(both happen exactly when both sums are zero); and whenever the original
fractional difference is a finite `d` and the series-B sum is nonzero, the
swapped fractional difference is `-d / (1 - d)` (not `-d / (1 + d)` as the
spec's relation states). -/
theorem discrepancy_swap_antisymmetry {K : Type} [DecidableEq K]
    (rows : List (ARow K)) (R : DRecord K) (hR : R ∈ discrepancy rows) :
    ∃ R' ∈ discrepancy (swapAB rows),
      R'.key = R.key ∧ R'.sumA = R.sumB ∧ R'.sumB = R.sumA ∧
      R'.absDiff = -R.absDiff ∧
      (R'.fracDiff = Val.nan ↔ R.fracDiff = Val.nan) ∧
      ∀ d : ℚ, R.fracDiff = Val.fin d → R.sumB ≠ 0 →
        R'.fracDiff = Val.fin (-d / (1 - d)) := by
  rcases (mem_discrepancy_iff rows R).mp hR with ⟨k, hk, rfl⟩
  refine ⟨{ key := k, sumA := sumsA (swapAB rows) k, sumB := sumsB (swapAB rows) k,
            absDiff := sumsA (swapAB rows) k - sumsB (swapAB rows) k,
            fracDiff := Val.div (Val.fin (sumsA (swapAB rows) k - sumsB (swapAB rows) k))
              (Val.fin (sumsA (swapAB rows) k)) }, ?_, ?_⟩
  · rw [mem_discrepancy_iff]
    exact ⟨k, by rw [swapAB_map_key]; exact hk, rfl⟩
  · dsimp only
    rw [sumsA_swapAB, sumsB_swapAB]
    refine ⟨rfl, rfl, rfl, by ring_nf, ?_, ?_⟩
    · rw [Val.div_fin_eq_nan_iff, Val.div_fin_eq_nan_iff]
      constructor
      · rintro ⟨h1, h2⟩
        exact ⟨by linarith, by linarith⟩
      · rintro ⟨h1, h2⟩
        exact ⟨by linarith, by linarith⟩
    · intro d hd hb
      rw [Val.div_fin_eq_fin_iff] at hd
      rcases hd with ⟨ha, hd⟩
      rw [Val.div_fin_eq_fin_iff]
      refine ⟨hb, ?_⟩
      subst hd
      have h1 : (1 : ℚ) - (sumsA rows k - sumsB rows k) / sumsA rows k
          = sumsB rows k / sumsA rows k := by
        field_simp
      rw [h1]
      field_simp

/-- C2 witness: the amended antisymmetry applied to the concrete one-group
table with sums `200` and `180` (`d = 1/10`, swapped `d = -1/9`). -/
theorem discrepancy_swap_antisymmetry_witness :
    ∃ R' ∈ discrepancy (swapAB [(⟨0, some 200, some 180⟩ : ARow ℕ)]),
      R'.key = (⟨0, 200, 180, 20, Val.fin (1/10)⟩ : DRecord ℕ).key ∧
      R'.sumA = (⟨0, 200, 180, 20, Val.fin (1/10)⟩ : DRecord ℕ).sumB ∧
      R'.sumB = (⟨0, 200, 180, 20, Val.fin (1/10)⟩ : DRecord ℕ).sumA ∧
      R'.absDiff = -(⟨0, 200, 180, 20, Val.fin (1/10)⟩ : DRecord ℕ).absDiff ∧
      (R'.fracDiff = Val.nan ↔
        (⟨0, 200, 180, 20, Val.fin (1/10)⟩ : DRecord ℕ).fracDiff = Val.nan) ∧
      ∀ d : ℚ, (⟨0, 200, 180, 20, Val.fin (1/10)⟩ : DRecord ℕ).fracDiff = Val.fin d →
        (⟨0, 200, 180, 20, Val.fin (1/10)⟩ : DRecord ℕ).sumB ≠ 0 →
        R'.fracDiff = Val.fin (-d / (1 - d)) :=
  discrepancy_swap_antisymmetry [⟨0, some 200, some 180⟩]
    ⟨0, 200, 180, 20, Val.fin (1/10)⟩
    (by norm_num [discrepancy, sumsA, sumsB, osum, Val.div, List.dedup, List.filter,
          List.pwFilter])

lemma groupSum_nil {K : Type} [DecidableEq K] (k : K) : groupSum ([] : List (SRow K)) k = 0 :=
  rfl

lemma groupSum_cons {K : Type} [DecidableEq K] (r : SRow K) (rs : List (SRow K)) (k : K) :
    groupSum (r :: rs) k = (if r.key = k then r.value.getD 0 else 0) + groupSum rs k := by
  by_cases h : r.key = k <;> simp [groupSum, List.filter_cons, h, osum]

lemma groupSum_append {K : Type} [DecidableEq K] (l₁ l₂ : List (SRow K)) (k : K) :
    groupSum (l₁ ++ l₂) k = groupSum l₁ k + groupSum l₂ k := by
  induction l₁ with
  | nil => simp [groupSum_nil]
  | cons r rs ih =>
      rw [List.cons_append, groupSum_cons, groupSum_cons, ih]
      ring

/-- Summing `if k = x then c else 0` over a duplicate-free list containing
`k` gives `c`. -/
lemma sum_map_ite_eq {K : Type} [DecidableEq K] (ks : List K) (k : K) (c : ℚ)
    (hnd : ks.Nodup) (hk : k ∈ ks) :
    (ks.map (fun x => if k = x then c else 0)).sum = c := by
  induction ks with
  | nil => cases hk
  | cons a ks ih =>
      rcases List.mem_cons.mp hk with rfl | hk2
      · have : ∀ x ∈ ks, (if k = x then c else 0) = 0 := by
          intro x hx
          have : k ≠ x := by
            rintro rfl
            exact (List.nodup_cons.mp hnd).1 hx
          simp [this]
        simp [List.sum_eq_zero (fun q hq => by
          rcases List.mem_map.mp hq with ⟨x, hx, rfl⟩
          exact this x hx)]
      · have hne : k ≠ a := by
          rintro rfl
          exact (List.nodup_cons.mp hnd).1 hk2
        simp only [List.map_cons, List.sum_cons, if_neg hne,
          ih (List.nodup_cons.mp hnd).2 hk2, zero_add]

/-- Conservation over any duplicate-free key list covering the table. -/
lemma sum_groupSum_eq {K : Type} [DecidableEq K] (ks : List K) (rows : List (SRow K))
    (hnd : ks.Nodup) (hmem : ∀ r ∈ rows, r.key ∈ ks) :
    (ks.map (groupSum rows)).sum = osum (rows.map SRow.value) := by
  induction rows with
  | nil =>
      have h0 : ks.map (groupSum ([] : List (SRow K))) = ks.map (fun _ => (0 : ℚ)) :=
        List.map_congr_left (fun k _ => groupSum_nil k)
      rw [h0]
      simp [osum, List.sum_eq_zero]
  | cons r rs ih =>
      have hrw : (ks.map (groupSum (r :: rs))) =
          ks.map (fun k => (if r.key = k then r.value.getD 0 else 0) + groupSum rs k) := by
        apply List.map_congr_left
        intro k _
        exact groupSum_cons r rs k
      rw [hrw, List.sum_map_add, sum_map_ite_eq ks r.key _ hnd (hmem r (by simp)),
        ih (fun x hx => hmem x (by simp [hx]))]
      simp [osum]

/-- C5: summing the grouped sums over all groups recovers the total sum of
the value column over the whole table (conservation of mass across
grouping); missing values count as zero on both sides, as in pandas
`skipna` summation. -/
theorem aggregate_conservation {K : Type} [DecidableEq K] (rows : List (SRow K)) :
    ((aggregate rows).map Prod.snd).sum = osum (rows.map SRow.value) := by
  unfold aggregate
  rw [List.map_map]
  have h : (Prod.snd ∘ fun k => (k, groupSum rows k)) = groupSum rows := rfl
  rw [h]
  exact sum_groupSum_eq _ _ (List.nodup_dedup _)
    (fun r hr => by
      rw [List.mem_dedup]
      exact List.mem_map_of_mem SRow.key hr)

/-- C6: a row whose measurement value is missing contributes nothing: the
sum of every group is the same with and without it, and the operation is
total (it is a function, never a failure). -/
theorem groupSum_missing_value_unchanged {K : Type} [DecidableEq K]
    (pre post : List (SRow K)) (r : SRow K) (hr : r.value = none) (k : K) :
    groupSum (pre ++ r :: post) k = groupSum (pre ++ post) k := by
  rw [groupSum_append, groupSum_append, groupSum_cons, hr]
  simp

/-- C6 witness: inserting a missing-valued row for group `0` between two
tables leaves the group sum unchanged. -/
theorem groupSum_missing_value_unchanged_witness :
    groupSum ([(⟨0, some 3⟩ : SRow ℕ)] ++ (⟨0, none⟩ : SRow ℕ) :: [⟨1, some 5⟩]) 0 =
      groupSum ([(⟨0, some 3⟩ : SRow ℕ)] ++ [⟨1, some 5⟩]) 0 :=
  groupSum_missing_value_unchanged [⟨0, some 3⟩] [⟨1, some 5⟩] ⟨0, none⟩ rfl 0

lemma groupSum_eq_zero_of_all_none {K : Type} [DecidableEq K]
    (rows : List (SRow K)) (k : K)
    (hall : ∀ r ∈ rows, r.key = k → r.value = none) :
    groupSum rows k = 0 := by
  induction rows with
  | nil => rfl
  | cons r rs ih =>
      rw [groupSum_cons]
      have h2 : groupSum rs k = 0 := ih (fun x hx hk => hall x (by simp [hx]) hk)
      by_cases h : r.key = k
      · rw [hall r (by simp) h]
        simp [h, h2]
      · simp [h, h2]

/-- C10: a group all of whose values are missing still appears in the
aggregate, with the plain numeric sum `0` — the output type carries no
missing marker, so such a group is indistinguishable from one whose
observations genuinely total zero. -/
theorem aggregate_all_missing_yields_zero {K : Type} [DecidableEq K]
    (rows : List (SRow K)) (k : K)
    (hmem : ∃ r ∈ rows, r.key = k) (hall : ∀ r ∈ rows, r.key = k → r.value = none) :
    (k, (0 : ℚ)) ∈ aggregate rows := by
  have hz : groupSum rows k = 0 := groupSum_eq_zero_of_all_none rows k hall
  have hk : k ∈ (rows.map SRow.key).dedup := by
    rw [List.mem_dedup]
    rcases hmem with ⟨r, hr, rfl⟩
    exact List.mem_map_of_mem SRow.key hr
  unfold aggregate
  rw [List.mem_map]
  exact ⟨k, hk, by rw [hz]⟩

/-- C10 witness: the single-group table whose only row has a missing value
produces the record `(0, 0)`. -/
theorem aggregate_all_missing_yields_zero_witness :
    ((0 : ℕ), (0 : ℚ)) ∈ aggregate [(⟨0, none⟩ : SRow ℕ)] :=
  aggregate_all_missing_yields_zero [⟨0, none⟩] 0
    ⟨⟨0, none⟩, by simp, rfl⟩
    (fun r hr _ => by
      rcases List.mem_singleton.mp hr with rfl
      rfl)

/-- A row of a table carrying a nullable imputation-flag column (the
notebook's `demand_imputed_pudl_mwh_imputation_code`): `none` is a null
flag (directly observed value), `some` a non-null flag (imputed value). -/
structure FRow (K F : Type) where
  key : K
  flag : Option F
deriving DecidableEq, Repr

/-- The `bad_data` cells:
`groupby(keys, observed=True)[flag].apply(lambda x: x.notnull().mean())` —
for each group occurring in the table, the fraction of its rows whose flag
is non-null.  `observed=True` means groups arise only from present rows. -/
def imputationRate {K F : Type} [DecidableEq K] (rows : List (FRow K F)) : List (K × ℚ) :=
  ((rows.map FRow.key).dedup).map (fun k =>
    (k, (((rows.filter (fun r => r.key = k)).filter (fun r => r.flag.isSome)).length : ℚ) /
      ((rows.filter (fun r => r.key = k)).length : ℚ)))

/-- C7: every group reported by `imputationRate` has at least one row (a
group with zero rows is never reported, because groups arise only from
observed rows), and its rate lies in `[0, 1]`. -/
theorem imputation_rate_bounds {K F : Type} [DecidableEq K]
    (rows : List (FRow K F)) (k : K) (rate : ℚ)
    (h : (k, rate) ∈ imputationRate rows) :
    (∃ r ∈ rows, r.key = k) ∧ 0 ≤ rate ∧ rate ≤ 1 := by
  rcases List.mem_map.mp h with ⟨k', hk', hpair⟩
  rcases Prod.mk.injEq .. ▸ hpair with h'
  have hkk : k' = k := (Prod.mk.injEq .. ▸ hpair).1
  have hrate : rate =
      (((rows.filter (fun r => r.key = k)).filter (fun r => r.flag.isSome)).length : ℚ) /
        ((rows.filter (fun r => r.key = k)).length : ℚ) := by
    rcases (Prod.mk.injEq .. ▸ hpair) with ⟨h1, h2⟩
    rw [← h2, hkk]
  subst hkk
  rw [List.mem_dedup] at hk'
  rcases List.mem_map.mp hk' with ⟨r, hr, hkey⟩
  have hg : r ∈ rows.filter (fun r' => r'.key = k') := by
    rw [List.mem_filter]
    exact ⟨hr, by simp [hkey]⟩
  have hne : rows.filter (fun r' => r'.key = k') ≠ [] := by
    intro he
    rw [he] at hg
    cases hg
  have hpos : 0 < ((rows.filter (fun r' => r'.key = k')).length : ℚ) := by
    exact_mod_cast List.length_pos.mpr hne
  refine ⟨⟨r, hr, hkey⟩, ?_, ?_⟩
  · rw [hrate]
    positivity
  · rw [hrate]
    rw [div_le_one hpos]
    exact_mod_cast List.length_filter_le _ _

/-- C7 witness: on a table where group `0` has ten rows, three of them
flagged, `imputationRate` reports rate `3/10`; applying the bounds theorem
to that record. -/
theorem imputation_rate_bounds_witness :
    (∃ r ∈ ([⟨0, some 7⟩, ⟨0, none⟩, ⟨0, some 7⟩, ⟨0, none⟩, ⟨0, none⟩, ⟨0, none⟩,
        ⟨0, some 7⟩, ⟨0, none⟩, ⟨0, none⟩, ⟨0, none⟩] : List (FRow ℕ ℕ)),
        r.key = 0) ∧ (0 : ℚ) ≤ 3/10 ∧ (3/10 : ℚ) ≤ 1 :=
  imputation_rate_bounds
    [⟨0, some 7⟩, ⟨0, none⟩, ⟨0, some 7⟩, ⟨0, none⟩, ⟨0, none⟩, ⟨0, none⟩,
      ⟨0, some 7⟩, ⟨0, none⟩, ⟨0, none⟩, ⟨0, none⟩] 0 (3/10)
    (by norm_num [imputationRate, List.dedup, List.filter, List.pwFilter])

/-- `pd.merge(A, B, how="inner")` on the (group key, timestamp) key,
modelled with the key abstract: every row of `A` is paired with every row
of `B` sharing its key. -/
def innerMerge {K : Type} [DecidableEq K] (A B : List (K × ℚ)) : List (K × ℚ × ℚ) :=
  A.flatMap (fun a => (B.filter (fun b => b.1 = a.1)).map (fun b => (a.1, a.2, b.2)))

/-- `pd.merge(A, B, how="outer")`: matched pairs in left order, then the
right-only rows; the side lacking data carries the explicit missing marker
`none`, not a numeric zero. -/
def outerMerge {K : Type} [DecidableEq K] (A B : List (K × ℚ)) :
    List (K × Option ℚ × Option ℚ) :=
  A.flatMap (fun a =>
    if (B.filter (fun b => b.1 = a.1)).isEmpty then [(a.1, some a.2, none)]
    else (B.filter (fun b => b.1 = a.1)).map (fun b => (a.1, some a.2, some b.2)))
  ++ (B.filter (fun b => (A.filter (fun a => a.1 = b.1)).isEmpty)).map
      (fun b => (b.1, none, some b.2))

/-- The number of rows of `l` with key `x` is the multiplicity of `x` in
the key column. -/
lemma length_filter_key_eq_count {K V : Type} [DecidableEq K] (l : List (K × V)) (x : K) :
    (l.filter (fun b => b.1 = x)).length = (l.map Prod.fst).count x := by
  induction l with
  | nil => rfl
  | cons b l ih =>
      by_cases h : b.1 = x
      · simp [List.filter_cons, h, List.count_cons, ih]
      · simp [List.filter_cons, h, List.count_cons, ih]

/-- With duplicate-free keys, at most one row matches any key. -/
lemma length_filter_key_le_one {K V : Type} [DecidableEq K] {l : List (K × V)}
    (h : (l.map Prod.fst).Nodup) (x : K) :
    (l.filter (fun b => b.1 = x)).length ≤ 1 := by
  rw [length_filter_key_eq_count]
  exact List.nodup_iff_count_le_one.mp h x

/-- The key column of the left part of an outer merge is exactly the key
column of `A`, provided `B` has duplicate-free keys. -/
lemma outerMerge_left_keys {K : Type} [DecidableEq K] (A B : List (K × ℚ))
    (hB : (B.map Prod.fst).Nodup) :
    ((A.flatMap (fun a =>
        if (B.filter (fun b => b.1 = a.1)).isEmpty then [(a.1, some a.2, (none : Option ℚ))]
        else (B.filter (fun b => b.1 = a.1)).map (fun b => (a.1, some a.2, some b.2)))).map
        (fun x => x.1)) = A.map Prod.fst := by
  rw [List.map_flatMap]
  have h : ∀ a ∈ A,
      ((if (B.filter (fun b => b.1 = a.1)).isEmpty then [(a.1, some a.2, (none : Option ℚ))]
        else (B.filter (fun b => b.1 = a.1)).map (fun b => (a.1, some a.2, some b.2))).map
        (fun x => x.1)) = [a.1] := by
    intro a _
    by_cases he : (B.filter (fun b => b.1 = a.1)).isEmpty
    · simp [he]
    · rw [if_neg he, List.map_map]
      have hlen : (B.filter (fun b => b.1 = a.1)).length = 1 := by
        have h1 := length_filter_key_le_one hB a.1
        have h2 : (B.filter (fun b => b.1 = a.1)).length ≠ 0 := by
          rw [List.isEmpty_iff] at he
          intro hz
          exact he (List.length_eq_zero.mp hz)
        omega
      rcases List.length_eq_one.mp hlen with ⟨b, hb⟩
      rw [hb]
      rfl
  rw [List.flatMap_congr h]
  exact (List.map_eq_flatMap _ _).symm

/-- C4: under `how=inner`, every result record's key occurs in both source
tables; under `how=outer` with well-formed sources (duplicate-free keys,
one observation per group+timestamp per series), every key occurring in
either source occurs exactly once in the result. -/
theorem merge_inner_outer_keys {K : Type} [DecidableEq K] (A B : List (K × ℚ)) (k : K)
    (hA : (A.map Prod.fst).Nodup) (hB : (B.map Prod.fst).Nodup) :
    (∀ x ∈ innerMerge A B, x.1 ∈ A.map Prod.fst ∧ x.1 ∈ B.map Prod.fst) ∧
      (k ∈ A.map Prod.fst ∨ k ∈ B.map Prod.fst →
        ((outerMerge A B).map (fun x => x.1)).count k = 1) := by
  constructor
  · intro x hx
    rcases List.mem_flatMap.mp hx with ⟨a, ha, hx2⟩
    rcases List.mem_map.mp hx2 with ⟨b, hb, rfl⟩
    rcases List.mem_filter.mp hb with ⟨hbB, hbk⟩
    refine ⟨List.mem_map_of_mem Prod.fst ha, ?_⟩
    have : b.1 = a.1 := by simpa using hbk
    rw [← this]
    exact List.mem_map_of_mem Prod.fst hbB
  · intro hk
    unfold outerMerge
    rw [List.map_append, List.count_append, outerMerge_left_keys A B hB]
    have hpart2 : ((B.filter (fun b => (A.filter (fun a => a.1 = b.1)).isEmpty)).map
        (fun b => (b.1, (none : Option ℚ), some b.2))).map (fun x => x.1) =
        (B.filter (fun b => (A.filter (fun a => a.1 = b.1)).isEmpty)).map (fun b => b.1) := by
      rw [List.map_map]
      rfl
    rw [hpart2]
    by_cases hmemA : k ∈ A.map Prod.fst
    · have h1 : (A.map Prod.fst).count k = 1 := List.count_eq_one_of_mem hA hmemA
      have h2 : ((B.filter (fun b => (A.filter (fun a => a.1 = b.1)).isEmpty)).map
          (fun b => b.1)).count k = 0 := by
        rw [List.count_eq_zero]
        intro hmem
        rcases List.mem_map.mp hmem with ⟨b, hb, hbk⟩
        rcases List.mem_filter.mp hb with ⟨-, hbe⟩
        rcases List.mem_map.mp hmemA with ⟨a, ha, hak⟩
        have hbk' : b.1 = k := hbk
        have hmm : a ∈ A.filter (fun a' => a'.1 = b.1) := by
          rw [List.mem_filter]
          exact ⟨ha, by simp [hak, hbk']⟩
        rw [List.isEmpty_iff] at hbe
        rw [hbe] at hmm
        cases hmm
      omega
    · rcases hk with h | hmemB
      · exact absurd h hmemA
      · have h1 : (A.map Prod.fst).count k = 0 := List.count_eq_zero.mpr hmemA
        have hcnt : ∀ (l : List (K × ℚ)), (l.map (fun b => b.1)).count k =
            (l.filter (fun b => b.1 = k)).length := by
          intro l
          rw [length_filter_key_eq_count]
        have h2 : ((B.filter (fun b => (A.filter (fun a => a.1 = b.1)).isEmpty)).map
            (fun b => b.1)).count k = 1 := by
          rw [hcnt, List.filter_filter]
          have hcong : B.filter (fun b =>
              decide (b.1 = k) && (A.filter (fun a => a.1 = b.1)).isEmpty) =
              B.filter (fun b => b.1 = k) := by
            apply List.filter_congr
            intro b _
            by_cases hbk : b.1 = k
            · have hie : (A.filter (fun a => a.1 = b.1)).isEmpty = true := by
                rw [List.isEmpty_iff, ← List.length_eq_zero,
                  length_filter_key_eq_count A b.1, hbk]
                exact List.count_eq_zero.mpr hmemA
              rw [hie, hbk]
              simp
            · simp [hbk]
          rw [hcong, length_filter_key_eq_count]
          exact List.count_eq_one_of_mem hB hmemB
        omega
example : osum [some 1, none, some 2] = 3 := by norm_num [osum]
example : Val.div (Val.fin 0) (Val.fin 0) = Val.nan := by decide
example : Val.div (Val.fin (-5)) (Val.fin 0) = Val.ninf := by decide
example :
    discrepancy [⟨(0 : ℕ), some 100, some 90⟩, ⟨0, some 100, some 90⟩, ⟨1, some 0, some 5⟩] =
      [⟨0, 200, 180, 20, Val.fin (1/10)⟩, ⟨1, 0, 5, -5, Val.ninf⟩] := by
  norm_num [discrepancy, sumsA, sumsB, osum, Val.div, List.dedup, List.filter, List.pwFilter]

/-- C4 witness: the key property applied at two concrete well-formed
tables, for the key `2` that occurs only in the right table. -/
theorem merge_inner_outer_keys_witness :
    (∀ x ∈ innerMerge [((0 : ℕ), (1 : ℚ)), (1, 2)] [((1 : ℕ), (5 : ℚ)), (2, 7)],
        x.1 ∈ ([((0 : ℕ), (1 : ℚ)), (1, 2)]).map Prod.fst ∧
        x.1 ∈ ([((1 : ℕ), (5 : ℚ)), (2, 7)]).map Prod.fst) ∧
      ((2 : ℕ) ∈ ([((0 : ℕ), (1 : ℚ)), (1, 2)]).map Prod.fst ∨
          (2 : ℕ) ∈ ([((1 : ℕ), (5 : ℚ)), (2, 7)]).map Prod.fst →
        ((outerMerge [((0 : ℕ), (1 : ℚ)), (1, 2)] [((1 : ℕ), (5 : ℚ)), (2, 7)]).map
          (fun x => x.1)).count 2 = 1) :=
  merge_inner_outer_keys [((0 : ℕ), (1 : ℚ)), (1, 2)] [((1 : ℕ), (5 : ℚ)), (2, 7)] 2
    (by simp) (by simp)

lemma Val.leB_total (x y : Val) : Val.leB x y = true ∨ Val.leB y x = true := by
  cases x <;> cases y <;> simp [Val.leB] <;> exact le_total _ _

lemma Val.leB_trans (x y z : Val) (h1 : Val.leB x y = true) (h2 : Val.leB y z = true) :
    Val.leB x z = true := by
  cases x <;> cases y <;> cases z <;> simp_all [Val.leB] <;> exact le_trans h1 h2

lemma Val.leB_antisymm (x y : Val) (h1 : Val.leB x y = true) (h2 : Val.leB y x = true) :
    x = y := by
  cases x <;> cases y <;> simp_all [Val.leB]
  exact le_antisymm h1 h2

/-- Row order used by ascending `sort_values` on the fractional-difference
column. -/
def rleAsc {K : Type} (r r' : DRecord K) : Prop :=
  Val.leB r.fracDiff r'.fracDiff = true

/-- Row order used by descending `sort_values` on the fractional-difference
column. -/
def rleDesc {K : Type} (r r' : DRecord K) : Prop :=
  Val.leB r'.fracDiff r.fracDiff = true

instance {K : Type} : DecidableRel (@rleAsc K) := fun r r' => by
  unfold rleAsc
  infer_instance

instance {K : Type} : DecidableRel (@rleDesc K) := fun r r' => by
  unfold rleDesc
  infer_instance

instance {K : Type} : IsTotal (DRecord K) rleAsc :=
  ⟨fun a b => Val.leB_total a.fracDiff b.fracDiff⟩

instance {K : Type} : IsTrans (DRecord K) rleAsc :=
  ⟨fun a b c => Val.leB_trans a.fracDiff b.fracDiff c.fracDiff⟩

instance {K : Type} : IsTotal (DRecord K) rleDesc :=
  ⟨fun a b => Val.leB_total b.fracDiff a.fracDiff⟩

instance {K : Type} : IsTrans (DRecord K) rleDesc :=
  ⟨fun a b c hab hbc => Val.leB_trans c.fracDiff b.fracDiff a.fracDiff hbc hab⟩

/-- `sort_values("frac_diff", ascending=...)` with the default
`na_position="last"`: NaN rows are split off and appended after the sorted
non-NaN rows, for either sort direction.  pandas specifies the order of
tied rows no further than "some permutation"; the embedding uses a
concrete stable sort, and every property proved about it below is
independent of tie order. -/
def rankSort {K : Type} [DecidableEq K] (ascending : Bool) (recs : List (DRecord K)) :
    List (DRecord K) :=
  (if ascending then List.insertionSort rleAsc (recs.filter (fun r => r.fracDiff ≠ Val.nan))
   else List.insertionSort rleDesc (recs.filter (fun r => r.fracDiff ≠ Val.nan)))
  ++ recs.filter (fun r => r.fracDiff = Val.nan)

/-- C3: ranking places every NaN-field record after all records whose
field is a defined value, for both sort directions (the output is a sorted
block of non-NaN records followed by the NaN records); and in the spec's
scenario — group `1` has series-A sum `0` and series-B sum `5`, group `0`
is an ordinary group — descending rank places the zero-denominator record
last, not first (its fractional difference is `-inf`, the smallest value). -/
theorem rank_undefined_sorts_last :
    (∀ (K : Type) [DecidableEq K] (ascending : Bool) (recs : List (DRecord K)),
        ∃ l₁ l₂, rankSort ascending recs = l₁ ++ l₂ ∧
          (∀ r ∈ l₁, r.fracDiff ≠ Val.nan) ∧ (∀ r ∈ l₂, r.fracDiff = Val.nan)) ∧
      rankSort false
          (discrepancy [⟨(0 : ℕ), some 100, some 90⟩, ⟨0, some 100, some 90⟩,
            ⟨1, some 0, some 5⟩]) =
        [⟨0, 200, 180, 20, Val.fin (1/10)⟩, ⟨1, 0, 5, -5, Val.ninf⟩] := by
  constructor
  · intro K _ ascending recs
    refine ⟨(if ascending then
        List.insertionSort rleAsc (recs.filter (fun r => r.fracDiff ≠ Val.nan))
      else List.insertionSort rleDesc (recs.filter (fun r => r.fracDiff ≠ Val.nan))),
      recs.filter (fun r => r.fracDiff = Val.nan), rfl, ?_, ?_⟩
    · intro r hr
      have hr2 : r ∈ recs.filter (fun r => r.fracDiff ≠ Val.nan) := by
        by_cases hasc : ascending
        · rw [if_pos hasc] at hr
          exact (List.mem_insertionSort rleAsc).mp hr
        · rw [if_neg hasc] at hr
          exact (List.mem_insertionSort rleDesc).mp hr
      have := List.of_mem_filter hr2
      simpa using this
    · intro r hr
      have := List.of_mem_filter hr
      simpa using this
  · have hd : discrepancy [⟨(0 : ℕ), some 100, some 90⟩, ⟨0, some 100, some 90⟩,
        ⟨1, some 0, some 5⟩] =
        [⟨0, 200, 180, 20, Val.fin (1/10)⟩, ⟨1, 0, 5, -5, Val.ninf⟩] := by
      norm_num [discrepancy, sumsA, sumsB, osum, Val.div, List.dedup, List.filter,
        List.pwFilter]
    rw [hd]
    rfl

/-- Two ascending-sorted permutations of the same records are equal when no
two records share a fractional-difference value. -/
lemma eq_of_sorted_asc_nodup {K : Type} (l₁ : List (DRecord K)) :
    ∀ l₂ : List (DRecord K), l₁.Perm l₂ →
      List.Pairwise rleAsc l₁ → List.Pairwise rleAsc l₂ →
      (l₁.map DRecord.fracDiff).Nodup → l₁ = l₂ := by
  induction l₁ with
  | nil =>
      intro l₂ hp _ _ _
      exact (List.perm_nil.mp hp.symm).symm
  | cons a t ih =>
      intro l₂ hp h₁ h₂ hnd
      cases l₂ with
      | nil => exact absurd (List.perm_nil.mp hp) (by simp)
      | cons b u =>
          have hab : a = b := by
            by_contra hne
            have haM : a ∈ b :: u := hp.subset (List.mem_cons_self a t)
            have hbM : b ∈ a :: t := hp.symm.subset (List.mem_cons_self b u)
            have haU : a ∈ u := by
              rcases List.mem_cons.mp haM with h | h
              · exact absurd h hne
              · exact h
            have hbT : b ∈ t := by
              rcases List.mem_cons.mp hbM with h | h
              · exact absurd h.symm hne
              · exact h
            have hr1 : rleAsc a b := (List.pairwise_cons.mp h₁).1 b hbT
            have hr2 : rleAsc b a := (List.pairwise_cons.mp h₂).1 a haU
            have heq : a.fracDiff = b.fracDiff := Val.leB_antisymm _ _ hr1 hr2
            have hmem : a.fracDiff ∈ t.map DRecord.fracDiff := by
              rw [heq]
              exact List.mem_map_of_mem _ hbT
            exact (List.nodup_cons.mp (by simpa using hnd)).1 hmem
          subst hab
          have ht : t = u := ih u hp.cons_inv (List.pairwise_cons.mp h₁).2
            (List.pairwise_cons.mp h₂).2 (List.nodup_cons.mp (by simpa using hnd)).2
          rw [ht]

/-- C8 (amended): when every record's fractional difference is defined
(non-NaN) and no two records share a value, the descending ranking is the
exact reverse of the ascending ranking — the record at position `i` of one
is the record at position `n-1-i` of the other.  (With NaN records present
the claim fails, because `na_position="last"` keeps NaN rows at the end of
*both* orders; see the counterexample.) -/
theorem rank_desc_is_reverse_of_asc {K : Type} [DecidableEq K] (recs : List (DRecord K))
    (hnonan : ∀ r ∈ recs, r.fracDiff ≠ Val.nan)
    (hdist : (recs.map DRecord.fracDiff).Nodup) :
    rankSort false recs = (rankSort true recs).reverse := by
  have hfil1 : recs.filter (fun r => r.fracDiff ≠ Val.nan) = recs :=
    List.filter_eq_self.mpr (fun r hr => by simpa using hnonan r hr)
  have hfil2 : recs.filter (fun r => r.fracDiff = Val.nan) = [] :=
    List.filter_eq_nil_iff.mpr (fun r hr => by simpa using hnonan r hr)
  unfold rankSort
  rw [hfil1, hfil2]
  simp only [Bool.false_eq_true, if_false, if_true, List.append_nil]
  have h1 : List.Pairwise rleAsc ((List.insertionSort rleDesc recs).reverse) := by
    rw [List.pairwise_reverse]
    exact List.sorted_insertionSort rleDesc recs
  have h2 : List.Pairwise rleAsc (List.insertionSort rleAsc recs) :=
    List.sorted_insertionSort rleAsc recs
  have hperm : (List.insertionSort rleDesc recs).reverse.Perm
      (List.insertionSort rleAsc recs) :=
    (List.reverse_perm _).trans ((List.perm_insertionSort rleDesc recs).trans
      (List.perm_insertionSort rleAsc recs).symm)
  have hnd' : (((List.insertionSort rleDesc recs).reverse).map DRecord.fracDiff).Nodup := by
    have hp : (List.insertionSort rleDesc recs).reverse.Perm recs :=
      (List.reverse_perm _).trans (List.perm_insertionSort rleDesc recs)
    exact ((hp.map DRecord.fracDiff).nodup_iff).mpr hdist
  have heq := eq_of_sorted_asc_nodup _ _ hperm h1 h2 hnd'
  rw [← heq, List.reverse_reverse]

/-- C8 (counterexample to the claim as stated): with one NaN record, both
sort directions place the NaN record last, so position `1` of the
descending result is the NaN record while position `n-1-1 = 0` of the
ascending result is the finite record — the two rankings are not mirror
images. -/
theorem rank_mirror_claim_counterexample :
    (rankSort false [(⟨0, 1, 0, 1, Val.fin 1⟩ : DRecord ℕ), ⟨1, 0, 0, 0, Val.nan⟩]).get? 1 ≠
      (rankSort true [(⟨0, 1, 0, 1, Val.fin 1⟩ : DRecord ℕ), ⟨1, 0, 0, 0, Val.nan⟩]).get? 0 := by
  have h1 : (rankSort false [(⟨0, 1, 0, 1, Val.fin 1⟩ : DRecord ℕ), ⟨1, 0, 0, 0, Val.nan⟩]) =
      [⟨0, 1, 0, 1, Val.fin 1⟩, ⟨1, 0, 0, 0, Val.nan⟩] := rfl
  have h2 : (rankSort true [(⟨0, 1, 0, 1, Val.fin 1⟩ : DRecord ℕ), ⟨1, 0, 0, 0, Val.nan⟩]) =
      [⟨0, 1, 0, 1, Val.fin 1⟩, ⟨1, 0, 0, 0, Val.nan⟩] := rfl
  rw [h1, h2]
  intro h
  simp [DRecord.mk.injEq] at h

/-- C8 witness: the amended mirror property applied to a concrete
two-record list with defined, distinct fractional differences. -/
theorem rank_desc_is_reverse_of_asc_witness :
    rankSort false [(⟨0, 200, 180, 20, Val.fin (1/10)⟩ : DRecord ℕ), ⟨1, 0, 5, -5, Val.ninf⟩] =
      (rankSort true
        [(⟨0, 200, 180, 20, Val.fin (1/10)⟩ : DRecord ℕ), ⟨1, 0, 5, -5, Val.ninf⟩]).reverse :=
  rank_desc_is_reverse_of_asc
    [⟨0, 200, 180, 20, Val.fin (1/10)⟩, ⟨1, 0, 5, -5, Val.ninf⟩]
    (by simp) (by simp)
